import Mathlib

/-!
Verification development for the shadow-data activity analyzer
(`src/main.py`).  Strings are modelled as lists of characters; each
regular-expression substitution of the source is translated into an
equivalent character-level scanning function (left-to-right,
non-overlapping matches, as `re.sub` performs them).  Python `\s` and
`\w` are modelled over their ASCII ranges, which covers every character
class the analyzer's own patterns can produce.  The timestamp-collection
channel of the analyzers (`parse_datetime` on `<span>` texts) is
independent of category counting and item extraction and is not part of
the properties studied here, so record blocks are modelled by their text
fragments and first hyperlink.
-/

abbrev Str := List Char

def str (s : String) : Str := s.data

/-- ASCII whitespace, the `\s` class of the source's patterns. -/
def isWsChar (c : Char) : Bool :=
  decide (c.toNat = 32 ∨ c.toNat = 9 ∨ c.toNat = 10 ∨ c.toNat = 13 ∨ c.toNat = 11 ∨ c.toNat = 12)

/-- The `[A-Za-z0-9]` class of `clean_text`. -/
def isAlnumChar (c : Char) : Bool :=
  decide ((65 ≤ c.toNat ∧ c.toNat ≤ 90) ∨ (97 ≤ c.toNat ∧ c.toNat ≤ 122)
    ∨ (48 ≤ c.toNat ∧ c.toNat ≤ 57))

def isLowerAlnumChar (c : Char) : Bool :=
  decide ((97 ≤ c.toNat ∧ c.toNat ≤ 122) ∨ (48 ≤ c.toNat ∧ c.toNat ≤ 57))

def isDigitChar (c : Char) : Bool := decide (48 ≤ c.toNat ∧ c.toNat ≤ 57)

/-- The `\w` class (ASCII), used for the `\b` boundaries of the source's patterns. -/
def isWordChar (c : Char) : Bool := isAlnumChar c || decide (c = '_')

/-- `str.lower()` on the ASCII range, as in the source's `.lower()` calls. -/
def toLowerStr (s : Str) : Str := s.map Char.toLower

/-- Scanner for `re.sub(r"<[^>]+>", "", s)`: state `some acc` means a `<`
was seen and `acc` holds (reversed) the non-`>` characters read since. -/
def rtAux (st : Option Str) : Str → Str
  | [] =>
    match st with
    | none => []
    | some acc => '<' :: acc.reverse
  | c :: rest =>
    match st with
    | none => if c = '<' then rtAux (some []) rest else c :: rtAux none rest
    | some acc =>
      if c = '>' then
        match acc with
        | [] => '<' :: '>' :: rtAux none rest
        | _ :: _ => rtAux none rest
      else rtAux (some (c :: acc)) rest

def removeTags (l : Str) : Str := rtAux none l

def headNonWs : Str → Bool
  | [] => false
  | c :: _ => !(isWsChar c)

/-- Does `https?://\S+` match at the head of `l`? -/
def urlStart (l : Str) : Bool :=
  ((str "https://").isPrefixOf l && headNonWs (l.drop 8))
  || ((str "http://").isPrefixOf l && headNonWs (l.drop 7))

/-- Scanner for `re.sub(r"https?://\S+", "", s)`: once a match starts, the
whole maximal non-whitespace run is consumed (the scheme itself has no
whitespace, so skipping while non-whitespace consumes exactly the match). -/
def ruAux (inRun : Bool) : Str → Str
  | [] => []
  | c :: rest =>
    if inRun then
      (if isWsChar c then c :: ruAux false rest else ruAux true rest)
    else
      (if urlStart (c :: rest) then ruAux true rest else c :: ruAux false rest)

def removeUrls (l : Str) : Str := ruAux false l

/-- Does `www\.\S+` match at the head of `l`? -/
def wwwStart (l : Str) : Bool := (str "www.").isPrefixOf l && headNonWs (l.drop 4)

/-- Scanner for `re.sub(r"www\.\S+", "", s)`. -/
def rwAux (inRun : Bool) : Str → Str
  | [] => []
  | c :: rest =>
    if inRun then
      (if isWsChar c then c :: rwAux false rest else rwAux true rest)
    else
      (if wwwStart (c :: rest) then rwAux true rest else c :: rwAux false rest)

def removeWww (l : Str) : Str := rwAux false l

/-- `re.sub(r"[^A-Za-z0-9\s]", " ", s)`. -/
def collapseSpecial (l : Str) : Str :=
  l.map (fun c => if isAlnumChar c || isWsChar c then c else ' ')

/-- Scanner for `re.sub(r"\s+", " ", s)`: a whitespace run becomes one space. -/
def swAux (inWs : Bool) : Str → Str
  | [] => []
  | c :: rest =>
    if isWsChar c then (if inWs then swAux true rest else ' ' :: swAux true rest)
    else c :: swAux false rest

def squeezeWs (l : Str) : Str := swAux false l

/-- Python `str.strip()`. -/
def stripWs (l : Str) : Str := ((l.dropWhile isWsChar).reverse.dropWhile isWsChar).reverse

/-- `clean_text` from `src/main.py`: tag removal, URL removal, `www.`
removal, special-character collapse, whitespace squeeze + strip, lowercase. -/
def cleanText (s : Str) : Str :=
  if s = [] then []
  else toLowerStr (stripWs (squeezeWs (collapseSpecial (removeWww (removeUrls (removeTags s))))))

/-- Python `str.split()` with no separator: maximal non-whitespace runs. -/
def wordsAux (cur : Str) : Str → List Str
  | [] =>
    match cur with
    | [] => []
    | _ :: _ => [cur.reverse]
  | c :: rest =>
    if isWsChar c then
      match cur with
      | [] => wordsAux [] rest
      | _ :: _ => cur.reverse :: wordsAux [] rest
    else wordsAux (c :: cur) rest

def splitWs (s : Str) : List Str := wordsAux [] s

def junkWords : List Str := [str "here", str "click", str "login", str "home", str "ok"]

/-- `clean_top5_item` from `src/main.py`. -/
def cleanTop5Item (s : Str) : Str :=
  stripWs (List.intercalate [' ']
    ((splitWs s).filter (fun w => decide (w ∉ junkWords ∧ 2 < w.length))))

/-- One step of building `collections.Counter` in insertion order. -/
def addCount (l : List (Str × Nat)) (s : Str) : List (Str × Nat) :=
  match l with
  | [] => [(s, 1)]
  | (t, n) :: rest => if t = s then (t, n + 1) :: rest else (t, n) :: addCount rest s

/-- `Counter(items)` as a (label, count) list in first-seen order. -/
def countsOf (items : List Str) : List (Str × Nat) := items.foldl addCount []

/-- Stable descending insertion: an element goes in front of the first
entry whose count is not larger, so earlier entries win ties. -/
def insertDesc (x : Str × Nat) : List (Str × Nat) → List (Str × Nat)
  | [] => [x]
  | y :: ys => if y.2 ≤ x.2 then x :: y :: ys else y :: insertDesc x ys

def sortDesc : List (Str × Nat) → List (Str × Nat)
  | [] => []
  | x :: xs => insertDesc x (sortDesc xs)

/-- `Counter(items).most_common(n)`: stable sort by descending count
(ties in first-seen order), truncated to `n` entries. -/
def mostCommon (n : Nat) (items : List Str) : List (Str × Nat) :=
  (sortDesc (countsOf items)).take n

/-- The `cleaned_items` list of `top5_from_list`: items whose `clean_text`
is nonempty, normalized and noise-filtered, with empties dropped. -/
def cleanedItems (items : List Str) : List Str :=
  ((items.filter (fun x => decide (cleanText x ≠ []))).map
    (fun x => cleanTop5Item (cleanText x))).filter (fun x => decide (x ≠ []))

/-- `top5_from_list` from `src/main.py`. -/
def top5FromList (items : List Str) : List (Str × Nat) :=
  if cleanedItems items = [] then [(str "No data found", 0)] else mostCommon 5 (cleanedItems items)

/-- Python's `phrase in text` substring test. -/
def isSubstr (p : Str) : Str → Bool
  | [] => decide (p = [])
  | c :: rest => p.isPrefixOf (c :: rest) || isSubstr p rest

/-- `text.split(p, 1)[1]`: everything after the first occurrence of `p`
(callers only use it when `p` occurs in the text). -/
def afterFirst (p : Str) : Str → Str
  | [] => []
  | c :: rest => if p.isPrefixOf (c :: rest) then (c :: rest).drop p.length else afterFirst p rest

/-- `text.split(p)[0]`: everything before the first occurrence of `p`. -/
def beforeFirst (p : Str) : Str → Str
  | [] => []
  | c :: rest => if p.isPrefixOf (c :: rest) then [] else c :: beforeFirst p rest

/-- One alternative of `re.sub(r"^(for|on|about)\s+", "", t, flags=re.I)`:
if `t` starts with the connector (case-insensitively) followed by at
least one whitespace character, drop both. -/
def connStrip (conn t : Str) : Option Str :=
  if toLowerStr (t.take conn.length) = conn then
    match t.drop conn.length with
    | [] => none
    | c :: rest => if isWsChar c then some ((c :: rest).dropWhile isWsChar) else none
  else none

/-- `re.sub(r"^(for|on|about)\s+", "", t, flags=re.I)`, alternatives
tried in the regex's order. -/
def stripConnector (t : Str) : Str :=
  match connStrip (str "for") t with
  | some r => r
  | none =>
    match connStrip (str "on") t with
    | some r => r
    | none =>
      match connStrip (str "about") t with
      | some r => r
      | none => t

def boundaryOk : Str → Bool
  | [] => true
  | c :: _ => !(isWordChar c)

/-- Does `\d{1,2}:\d{2}\b` match at the head of `ds`? -/
def timeTail (ds : Str) : Bool :=
  (match ds with
   | d1 :: d2 :: ':' :: e1 :: e2 :: rest =>
     isDigitChar d1 && isDigitChar d2 && isDigitChar e1 && isDigitChar e2 && boundaryOk rest
   | _ => false)
  || (match ds with
   | d1 :: ':' :: e1 :: e2 :: rest =>
     isDigitChar d1 && isDigitChar e1 && isDigitChar e2 && boundaryOk rest
   | _ => false)

/-- Does `at \d{1,2}:\d{2}\b` match at the head of `t`? -/
def timeMatchAt : Str → Bool
  | 'a' :: 't' :: ' ' :: ds => timeTail ds
  | _ => false

/-- Scanner for `re.sub(r"\bat \d{1,2}:\d{2}\b.*$", "", t)`; `bdry` says
whether a word boundary precedes the current position.  The `.*$` tail is
modelled as reaching the end of the string, which is exact for the call
site (the argument there is `clean_text` output and contains no newline). -/
def sttAux (bdry : Bool) : Str → Str
  | [] => []
  | c :: rest =>
    if bdry && timeMatchAt (c :: rest) then []
    else c :: sttAux (!(isWordChar c)) rest

def stripTimeFrag (t : Str) : Str := sttAux true t

/-- A record block (`div`) of the input document: its stripped nonempty
text fragments, and the display text and `href` of its first hyperlink,
if any.  `get_text(separator=sep, strip=True)` joins the fragments
with `sep`. -/
structure Block where
  frags : List Str
  firstLink : Option (Str × Str)
deriving DecidableEq

def blockText (b : Block) : Str := List.intercalate [' '] b.frags

def blockTextNl (b : Block) : Str := List.intercalate ['\n'] b.frags

/-- Category counters of the generic and video analyzers. -/
structure Cats6 where
  search : Nat
  youtube : Nat
  maps : Nat
  shopping : Nat
  discover : Nat
  other : Nat
deriving DecidableEq

/-- Category counters of the search analyzer. -/
structure Cats2 where
  search : Nat
  other : Nat
deriving DecidableEq

/-- Category counter of the discover analyzer. -/
structure Cats1 where
  discover : Nat
deriving DecidableEq

/-- The six categories, for stating "exactly one counter is bumped". -/
inductive Cat6 where
  | searchC | youtubeC | mapsC | shoppingC | discoverC | otherC
deriving DecidableEq

def bump6 (c : Cat6) (k : Cats6) : Cats6 :=
  match c with
  | .searchC => { k with search := k.search + 1 }
  | .youtubeC => { k with youtube := k.youtube + 1 }
  | .mapsC => { k with maps := k.maps + 1 }
  | .shoppingC => { k with shopping := k.shopping + 1 }
  | .discoverC => { k with discover := k.discover + 1 }
  | .otherC => { k with other := k.other + 1 }

/-- The classification chain of `analyze_generic_file` (first match wins). -/
def genCats (low : Str) (k : Cats6) : Cats6 :=
  if isSubstr (str "searched") low || isSubstr (str "search") low then
    { k with search := k.search + 1 }
  else if isSubstr (str "youtube") low || isSubstr (str "watched") low then
    { k with youtube := k.youtube + 1 }
  else if isSubstr (str "maps") low || isSubstr (str "location") low
      || isSubstr (str "place") low then
    { k with maps := k.maps + 1 }
  else if isSubstr (str "shopping") low || isSubstr (str "product") low then
    { k with shopping := k.shopping + 1 }
  else if isSubstr (str "discover") low then
    { k with discover := k.discover + 1 }
  else { k with other := k.other + 1 }

/-- The display item collected by `analyze_generic_file` for one block:
the first hyperlink's text if present, otherwise the cleaned chunk before
the first " • " separator, skipped when it cleans to empty. -/
def genItemOf (b : Block) : Option Str :=
  match b.firstLink with
  | some (txt, _) => some txt
  | none =>
    let chunk := cleanText (beforeFirst (str " • ") (blockText b))
    if chunk = [] then none else some chunk

def genStep (acc : Cats6 × List Str) (b : Block) : Cats6 × List Str :=
  (genCats (toLowerStr (blockText b)) acc.1, acc.2 ++ (genItemOf b).toList)

/-- `analyze_generic_file`, without the timestamp channel. -/
def analyzeGeneric (doc : List Block) : Cats6 × List (Str × Nat) :=
  let r := doc.foldl genStep (⟨0, 0, 0, 0, 0, 0⟩, [])
  (r.1, top5FromList r.2)

def searchPhrases : List Str := [str "Searched for", str "You searched for", str "Searched on Google for"]

/-- The query term `analyze_search_file` extracts after a matched phrase:
cleaned, leading connector stripped, trailing time fragment stripped. -/
def searchTermOf (text p : Str) : Str :=
  stripTimeFrag (stripConnector (cleanText (afterFirst p text)))

/-- One block of `analyze_search_file`: the first phrase contained in the
block's text (in the list's order) bumps Search and contributes its term
when nonempty; otherwise Other is bumped. -/
def searchStep (acc : Cats2 × List Str) (b : Block) : Cats2 × List Str :=
  match searchPhrases.find? (fun p => isSubstr p (blockText b)) with
  | some p =>
    let term := searchTermOf (blockText b) p
    (⟨acc.1.search + 1, acc.1.other⟩, if term = [] then acc.2 else acc.2 ++ [term])
  | none => (⟨acc.1.search, acc.1.other + 1⟩, acc.2)

/-- `analyze_search_file`, without the timestamp channel. -/
def analyzeSearch (doc : List Block) : Cats2 × List (Str × Nat) :=
  let r := doc.foldl searchStep (⟨0, 0⟩, [])
  (r.1, top5FromList r.2)

def ytPhrases : List Str := [str "Searched for", str "Search for", str "Searched on YouTube for"]

/-- One phrase test of `analyze_youtube_file`'s query loop (no break in
the source: every phrase contained in the text contributes). -/
def ytQueryOf (text p : Str) : Option Str :=
  if isSubstr p text then
    let q := stripConnector (cleanText (afterFirst p text))
    if q = [] then none else some q
  else none

def ytQueriesOf (text : Str) : List Str := ytPhrases.filterMap (fun p => ytQueryOf text p)

/-- The watch-event title of one block of `analyze_youtube_file`: the
first hyperlink's cleaned text, kept only when the `href` is a YouTube
link and the title is nonempty and not the removed-video placeholder. -/
def ytTitleOf (b : Block) : Option Str :=
  match b.firstLink with
  | none => none
  | some (txt, href) =>
    if isSubstr (str "youtube.com") href || isSubstr (str "youtu.be") href then
      let title := cleanText txt
      if title = [] then none
      else if (str "watched a video that has been removed").isPrefixOf (toLowerStr title) then none
      else some title
    else none

/-- `analyze_youtube_file`, without the timestamp channel: YouTube and
Search counts are the final sizes of the title and query lists. -/
def analyzeYoutube (doc : List Block) : Cats6 × List (Str × Nat) :=
  let queries := doc.foldl (fun acc b => acc ++ ytQueriesOf (blockText b)) ([] : List Str)
  let titles := doc.foldl (fun acc b => acc ++ (ytTitleOf b).toList) ([] : List Str)
  (⟨queries.length, titles.length, 0, 0, 0, 0⟩, top5FromList (queries ++ titles))

/-- Python `text.splitlines()` for newline-separated text. -/
def splitLinesAux (cur : Str) : Str → List Str
  | [] => [cur.reverse]
  | c :: rest => if c = '\n' then cur.reverse :: splitLinesAux [] rest else splitLinesAux (c :: cur) rest

def splitLines (t : Str) : List Str := splitLinesAux [] t

/-- `re.sub(r'\s*-\s*viewed$', '', ln, flags=re.I)`: drop a trailing
"- viewed" (case-insensitive, with optional whitespace around the dash). -/
def stripDashViewed (ln : Str) : Str :=
  let r := ln.reverse
  if toLowerStr (r.take 6) = str "deweiv" then
    match (r.drop 6).dropWhile isWsChar with
    | '-' :: r3 => (r3.dropWhile isWsChar).reverse
    | _ => ln
  else ln

/-- `re.sub(r'viewed$', '', ln, flags=re.I)`. -/
def stripViewedSuffix (ln : Str) : Str :=
  let r := ln.reverse
  if toLowerStr (r.take 6) = str "deweiv" then (r.drop 6).reverse else ln

/-- Scanner for a case-insensitive word-bounded occurrence of `p` (given
in lowercase): used for `re.search` with `\b`-delimited alternatives. -/
def cbAux (p : Str) (bdry : Bool) : Str → Bool
  | [] => false
  | c :: rest =>
    (bdry && decide (toLowerStr ((c :: rest).take p.length) = p)
      && boundaryOk ((c :: rest).drop p.length))
    || cbAux p (!(isWordChar c)) rest

def containsBounded (p t : Str) : Bool := cbAux p true t

/-- `re.search(r'\bcard(s)?\b|\bin your feed\b', t, flags=re.I)`. -/
def hasCardWord (t : Str) : Bool :=
  containsBounded (str "cards") t || containsBounded (str "card") t
  || containsBounded (str "in your feed") t

/-- One extraction-window line of `analyze_discover_file`: strip viewed
suffixes, discard card/feed boilerplate, clean, keep if nonempty. -/
def discoverLineItem (ln : Str) : Option Str :=
  let c1 := stripWs (stripDashViewed ln)
  let c2 := stripWs (stripViewedSuffix c1)
  if hasCardWord c2 then none
  else
    let c3 := cleanText c2
    if c3 = [] then none else some c3

/-- The items one block contributes in `analyze_discover_file`:
non-qualifying blocks are skipped entirely, the extraction window runs
from after the "details" marker (or from the second line) up to a
"why is this here" line. -/
def discoverBlockItems (b : Block) : List Str :=
  let text := blockTextNl b
  if text = [] then []
  else
    let lines := ((splitLines text).map stripWs).filter (fun ln => decide (ln ≠ []))
    match lines with
    | [] => []
    | l0 :: _ =>
      let blockLower := toLowerStr (List.intercalate ['\n'] lines)
      if isSubstr (str "discover") (toLowerStr l0)
          || (isSubstr (str "products:") blockLower && isSubstr (str "discover") blockLower) then
        let startIdx :=
          match lines.findIdx? (fun ln => (str "details").isPrefixOf (toLowerStr ln)) with
          | some i => i + 1
          | none => 1
        ((lines.drop startIdx).takeWhile
          (fun ln => !((str "why is this here").isPrefixOf (toLowerStr ln)))).filterMap
          discoverLineItem
      else []

def discoverItems (doc : List Block) : List Str :=
  doc.foldl (fun acc b => acc ++ discoverBlockItems b) []

def sumCounts (l : List (Str × Nat)) : Nat := l.foldl (fun a p => a + p.2) 0

/-- `analyze_discover_file`, without the timestamp channel: the Discover
count is the sum of the counter's values; the ranked list is
`most_common(5)` of the collected items (sentinel when none). -/
def analyzeDiscover (doc : List Block) : Cats1 × List (Str × Nat) :=
  let items := discoverItems doc
  (⟨sumCounts (countsOf items)⟩,
    if items = [] then [(str "No data found", 0)] else mostCommon 5 items)

/-- Python `int(...)`: truncation toward zero. -/
def pyTrunc (q : ℚ) : ℤ := if 0 ≤ q then q.floor else -((-q).floor)

/-- `risk_percent` in `calculate_risk`: `int(max(0, min(100, total / 15 * 100)))`.
The total risk score is real-valued (log/exp sums); the percent and tier
logic is uniform in it, so it enters as a rational parameter. -/
def riskPercent (total : ℚ) : ℤ := pyTrunc (max 0 (min 100 (total / 15 * 100)))

/-- The tier selection and literal result bundle of `calculate_risk`:
(level, color, headline, suggestions, percent) as a function of the total
risk score. -/
def calculateRisk (total : ℚ) : String × String × String × List String × ℤ :=
  if total ≤ 3 then
    ("Low", "green", "Low tracking detected.",
      ["Keep privacy settings reviewed monthly.",
       "Use incognito for sensitive searches.",
       "Periodically clear browsing history."],
      riskPercent total)
  else if total ≤ 10 then
    ("Medium", "#ffcc00", "Moderate tracking detected.",
      ["Turn off Location History in Google settings.",
       "Review connected apps and revoke unused permissions.",
       "Use a privacy-focused browser (Brave/Firefox) for routine browsing."],
      riskPercent total)
  else
    ("High", "red", "Heavy tracking detected recently.",
      ["Pause Web & App Activity (Google Account ▶ Data & privacy).",
       "Delete recent activity from My Activity.",
       "Consider a VPN for browsing and disable ad personalization."],
      riskPercent total)

/-- Concrete blocks used by counterexamples and witnesses below. -/
def helloBlock : Block := { frags := [str "hello"], firstLink := none }

def okBlock : Block := { frags := [str "Discover", str "ok"], firstLink := none }

def doubleMatchBlock : Block := { frags := [str "Searched for a Search for b"], firstLink := none }

def c2Block : Block := { frags := [str "Searched for cats and dogs at 10:30"], firstLink := none }

def emptyTermBlock : Block := { frags := [str "Searched for !!!"], firstLink := none }

def lowercaseBlock : Block := { frags := [str "searched for cats"], firstLink := none }

/-! ### Character-level lemmas -/

theorem toNat_ofNat_valid {n : Nat} (h : n.isValidChar) : (Char.ofNat n).toNat = n := by
  rw [Char.ofNat, dif_pos h]
  rfl

theorem char_eq_of_toNat_eq {c d : Char} (h : c.toNat = d.toNat) : c = d := by
  have h2 := congrArg Char.ofNat h
  rwa [Char.ofNat_toNat, Char.ofNat_toNat] at h2

theorem toLower_of_not_upper {c : Char} (h : ¬ (65 ≤ c.toNat ∧ c.toNat ≤ 90)) :
    Char.toLower c = c := by
  rw [Char.toLower]
  exact if_neg (by simpa [ge_iff_le] using h)

theorem toLower_toNat_of_upper {c : Char} (h1 : 65 ≤ c.toNat) (h2 : c.toNat ≤ 90) :
    (Char.toLower c).toNat = c.toNat + 32 := by
  rw [Char.toLower]
  rw [if_pos (by exact ⟨h1, h2⟩)]
  exact toNat_ofNat_valid (Or.inl (by omega))

theorem isLowerAlnum_toLower {c : Char} (h : isAlnumChar c = true) :
    isLowerAlnumChar (Char.toLower c) = true := by
  simp only [isAlnumChar, decide_eq_true_eq] at h
  by_cases hu : 65 ≤ c.toNat ∧ c.toNat ≤ 90
  · have := toLower_toNat_of_upper hu.1 hu.2
    simp only [isLowerAlnumChar, decide_eq_true_eq]
    omega
  · rw [toLower_of_not_upper hu]
    simp only [isLowerAlnumChar, decide_eq_true_eq]
    rcases h with h | h | h
    · exact absurd h hu
    · exact Or.inl h
    · exact Or.inr h

theorem isWsChar_toLower (c : Char) : isWsChar (Char.toLower c) = isWsChar c := by
  by_cases hu : 65 ≤ c.toNat ∧ c.toNat ≤ 90
  · have h1 := toLower_toNat_of_upper hu.1 hu.2
    have e1 : isWsChar (Char.toLower c) = false := by
      simp only [isWsChar, decide_eq_false_iff_not]
      omega
    have e2 : isWsChar c = false := by
      simp only [isWsChar, decide_eq_false_iff_not]
      omega
    rw [e1, e2]
  · rw [toLower_of_not_upper hu]

theorem toLower_eq_space_iff {c : Char} : Char.toLower c = ' ' ↔ c = ' ' := by
  constructor
  · intro h
    by_cases hu : 65 ≤ c.toNat ∧ c.toNat ≤ 90
    · have h1 := toLower_toNat_of_upper hu.1 hu.2
      rw [h] at h1
      simp at h1
      omega
    · rwa [toLower_of_not_upper hu] at h
  · intro h
    subst h
    rfl

theorem space_isWs : isWsChar ' ' = true := by decide

theorem isWsChar_eq_space {c : Char}
    (hlc : isLowerAlnumChar c = true ∨ c = ' ') (hws : isWsChar c = true) : c = ' ' := by
  rcases hlc with h | h
  · simp only [isLowerAlnumChar, decide_eq_true_eq] at h
    simp only [isWsChar, decide_eq_true_eq] at hws
    omega
  · exact h

/-! ### Whitespace-normalization lemmas -/

/-- No two adjacent whitespace characters. -/
def wsRel (a b : Char) : Prop := ¬ (isWsChar a = true ∧ isWsChar b = true)

theorem collapseSpecial_mem {c : Char} {l : Str} (h : c ∈ collapseSpecial l) :
    isAlnumChar c = true ∨ isWsChar c = true := by
  simp only [collapseSpecial, List.mem_map] at h
  obtain ⟨d, _, rfl⟩ := h
  by_cases h1 : (isAlnumChar d || isWsChar d) = true
  · rw [if_pos h1]
    simpa using h1
  · rw [if_neg h1]
    right
    decide

theorem mem_swAux {c : Char} (w : Bool) (l : Str) (h : c ∈ swAux w l) :
    c = ' ' ∨ (c ∈ l ∧ isWsChar c = false) := by
  induction l generalizing w with
  | nil => simp [swAux] at h
  | cons d rest ih =>
    rw [swAux] at h
    by_cases hd : isWsChar d = true
    · rw [if_pos hd] at h
      cases w with
      | false =>
        simp only [Bool.false_eq_true, if_false, List.mem_cons] at h
        rcases h with rfl | h
        · exact Or.inl rfl
        · rcases ih true h with h1 | ⟨h2, h3⟩
          · exact Or.inl h1
          · exact Or.inr ⟨List.mem_cons_of_mem _ h2, h3⟩
      | true =>
        simp only [if_true] at h
        rcases ih true h with h1 | ⟨h2, h3⟩
        · exact Or.inl h1
        · exact Or.inr ⟨List.mem_cons_of_mem _ h2, h3⟩
    · rw [if_neg hd] at h
      rcases List.mem_cons.mp h with rfl | h
      · exact Or.inr ⟨List.mem_cons_self _ _, by simpa using hd⟩
      · rcases ih false h with h1 | ⟨h2, h3⟩
        · exact Or.inl h1
        · exact Or.inr ⟨List.mem_cons_of_mem _ h2, h3⟩

theorem swAux_true_head {l : Str} {d : Char} (h : (swAux true l).head? = some d) :
    isWsChar d = false := by
  induction l with
  | nil => simp [swAux] at h
  | cons c rest ih =>
    rw [swAux] at h
    by_cases hc : isWsChar c = true
    · simp only [if_pos hc, if_true] at h
      exact ih h
    · simp only [if_neg hc, List.head?_cons, Option.some.injEq] at h
      subst h
      simpa using hc

theorem chain'_swAux (w : Bool) (l : Str) : List.Chain' wsRel (swAux w l) := by
  induction l generalizing w with
  | nil => simp [swAux]
  | cons c rest ih =>
    rw [swAux]
    by_cases hc : isWsChar c = true
    · rw [if_pos hc]
      cases w with
      | false =>
        simp only [Bool.false_eq_true, if_false]
        rw [List.chain'_cons']
        refine ⟨?_, ih true⟩
        intro y hy hcon
        have h1 := swAux_true_head (Option.mem_def.mp hy)
        rw [h1] at hcon
        exact Bool.false_ne_true hcon.2
      | true => simpa using ih true
    · rw [if_neg hc]
      rw [List.chain'_cons']
      refine ⟨?_, ih false⟩
      intro y _ hcon
      exact hc hcon.1

theorem stripWs_subset {c : Char} {l : Str} (h : c ∈ stripWs l) : c ∈ l := by
  unfold stripWs at h
  rw [List.mem_reverse] at h
  have h1 := (List.dropWhile_suffix isWsChar).sublist.subset h
  rw [List.mem_reverse] at h1
  exact (List.dropWhile_suffix isWsChar).sublist.subset h1

theorem stripWs_head {l : Str} {d : Char} (h : (stripWs l).head? = some d) :
    isWsChar d = false := by
  unfold stripWs at h
  rw [List.head?_reverse] at h
  obtain ⟨t, ht⟩ := List.dropWhile_suffix (l := (l.dropWhile isWsChar).reverse) isWsChar
  have h2 : (l.dropWhile isWsChar).reverse.getLast? = some d := by
    rw [← ht, List.getLast?_append, h]
    rfl
  rw [List.getLast?_reverse] at h2
  have h3 := List.head?_dropWhile_not isWsChar l
  rw [h2] at h3
  exact h3

theorem stripWs_getLast {l : Str} {d : Char} (h : (stripWs l).getLast? = some d) :
    isWsChar d = false := by
  unfold stripWs at h
  rw [List.getLast?_reverse] at h
  have h3 := List.head?_dropWhile_not isWsChar (l.dropWhile isWsChar).reverse
  rw [h] at h3
  exact h3

theorem stripWs_chain {l : Str} (h : List.Chain' wsRel l) : List.Chain' wsRel (stripWs l) := by
  have symm : ∀ m : Str, List.Chain' wsRel m → List.Chain' wsRel m.reverse := by
    intro m hm
    rw [List.chain'_reverse]
    exact hm.imp (fun a b hab hcon => hab ⟨hcon.2, hcon.1⟩)
  unfold stripWs
  apply symm
  apply List.Chain'.suffix _ (List.dropWhile_suffix isWsChar)
  apply symm
  exact List.Chain'.suffix h (List.dropWhile_suffix isWsChar)

/-! ### The removal scanners only delete characters -/

def pendingOf : Option Str → Str
  | none => []
  | some acc => '<' :: acc.reverse

theorem rtAux_sublist (l : Str) : ∀ st, List.Sublist (rtAux st l) (pendingOf st ++ l) := by
  induction l with
  | nil =>
    intro st
    cases st with
    | none => simp [rtAux, pendingOf]
    | some acc => simp [rtAux, pendingOf]
  | cons c rest ih =>
    intro st
    cases st with
    | none =>
      simp only [rtAux]
      by_cases hc : c = '<'
      · rw [if_pos hc, hc]
        simpa [pendingOf] using ih (some [])
      · rw [if_neg hc]
        exact List.Sublist.cons₂ c (by simpa [pendingOf] using ih none)
    | some acc =>
      simp only [rtAux]
      by_cases hc : c = '>'
      · rw [if_pos hc, hc]
        cases acc with
        | nil =>
          simp only [pendingOf, List.reverse_nil, List.cons_append, List.nil_append]
          exact List.Sublist.cons₂ _ (List.Sublist.cons₂ _ (by simpa [pendingOf] using ih none))
        | cons a as =>
          have h1 : List.Sublist (rtAux none rest) rest := by simpa [pendingOf] using ih none
          refine h1.trans ?_
          refine (List.sublist_cons_self '>' rest).trans ?_
          exact List.sublist_append_right _ _
      · rw [if_neg hc]
        have h1 := ih (some (c :: acc))
        simp only [pendingOf, List.reverse_cons, List.cons_append, List.append_assoc] at h1 ⊢
        simpa using h1

theorem removeTags_sublist (l : Str) : List.Sublist (removeTags l) l := by
  simpa [pendingOf] using rtAux_sublist l none

theorem ruAux_sublist (l : Str) : ∀ w, List.Sublist (ruAux w l) l := by
  induction l with
  | nil => intro w; simp [ruAux]
  | cons c rest ih =>
    intro w
    simp only [ruAux]
    cases w with
    | true =>
      simp only [if_true]
      by_cases hc : isWsChar c = true
      · rw [if_pos hc]
        exact List.Sublist.cons₂ c (ih false)
      · rw [if_neg hc]
        exact List.Sublist.cons c (ih true)
    | false =>
      simp only [Bool.false_eq_true, if_false]
      by_cases hc : urlStart (c :: rest) = true
      · rw [if_pos hc]
        exact List.Sublist.cons c (ih true)
      · rw [if_neg hc]
        exact List.Sublist.cons₂ c (ih false)

theorem rwAux_sublist (l : Str) : ∀ w, List.Sublist (rwAux w l) l := by
  induction l with
  | nil => intro w; simp [rwAux]
  | cons c rest ih =>
    intro w
    simp only [rwAux]
    cases w with
    | true =>
      simp only [if_true]
      by_cases hc : isWsChar c = true
      · rw [if_pos hc]
        exact List.Sublist.cons₂ c (ih false)
      · rw [if_neg hc]
        exact List.Sublist.cons c (ih true)
    | false =>
      simp only [Bool.false_eq_true, if_false]
      by_cases hc : wwwStart (c :: rest) = true
      · rw [if_pos hc]
        exact List.Sublist.cons c (ih true)
      · rw [if_neg hc]
        exact List.Sublist.cons₂ c (ih false)

/-! ### Invariants of `cleanText` -/

theorem collapseSpecial_all_ws {l : Str} (h : ∀ c ∈ l, isAlnumChar c = false) :
    ∀ c ∈ collapseSpecial l, isWsChar c = true := by
  intro c hc
  simp only [collapseSpecial, List.mem_map] at hc
  obtain ⟨d, hd, rfl⟩ := hc
  have hd2 := h d hd
  by_cases h1 : (isAlnumChar d || isWsChar d) = true
  · rw [if_pos h1]
    simpa [hd2] using h1
  · rw [if_neg h1]
    decide

theorem swAux_all_ws {l : Str} (h : ∀ c ∈ l, isWsChar c = true) :
    swAux true l = [] ∧ swAux false l = (if l = [] then [] else [' ']) := by
  induction l with
  | nil => constructor <;> rfl
  | cons c rest ih =>
    have hc := h c (List.mem_cons_self _ _)
    have ih2 := ih (fun d hd => h d (List.mem_cons_of_mem _ hd))
    constructor
    · rw [swAux, if_pos hc, if_pos rfl]
      exact ih2.1
    · rw [swAux, if_pos hc]
      simp only [Bool.false_eq_true, if_false]
      rw [ih2.1]
      simp

theorem cleanText_noise {s : Str} (h : ∀ c ∈ s, isAlnumChar c = false) : cleanText s = [] := by
  rw [cleanText]
  by_cases hs : s = []
  · rw [if_pos hs]
  · rw [if_neg hs]
    have h1 : ∀ c ∈ removeWww (removeUrls (removeTags s)), isAlnumChar c = false := by
      intro c hc
      have s3 := (rwAux_sublist (removeUrls (removeTags s)) false).subset hc
      have s2 := (ruAux_sublist (removeTags s) false).subset s3
      exact h c ((removeTags_sublist s).subset s2)
    have h2 := collapseSpecial_all_ws h1
    have h3 := (swAux_all_ws h2).2
    rw [squeezeWs] at *
    rw [h3]
    by_cases hM : collapseSpecial (removeWww (removeUrls (removeTags s))) = []
    · rw [if_pos hM]
      rfl
    · rw [if_neg hM]
      rfl

theorem cleanText_chars {s : Str} : ∀ c ∈ cleanText s, isLowerAlnumChar c = true ∨ c = ' ' := by
  intro c hc
  rw [cleanText] at hc
  split at hc
  · simp at hc
  · simp only [toLowerStr, List.mem_map] at hc
    obtain ⟨d, hd, rfl⟩ := hc
    have hd1 := stripWs_subset hd
    rcases mem_swAux false _ hd1 with rfl | ⟨hd2, hd3⟩
    · right
      decide
    · rcases collapseSpecial_mem hd2 with ha | hw
      · exact Or.inl (isLowerAlnum_toLower ha)
      · rw [hd3] at hw
        cases hw

theorem cleanText_chainWs (s : Str) : List.Chain' wsRel (cleanText s) := by
  rw [cleanText]
  split
  · simp
  · have h1 := chain'_swAux false (collapseSpecial (removeWww (removeUrls (removeTags s))))
    have h2 := stripWs_chain h1
    exact List.chain'_map_of_chain' Char.toLower
      (fun a b hab hcon => hab ⟨by rw [← isWsChar_toLower]; exact hcon.1,
        by rw [← isWsChar_toLower]; exact hcon.2⟩) h2

theorem cleanText_head_not_ws {s : Str} {d : Char} (h : (cleanText s).head? = some d) :
    isWsChar d = false := by
  rw [cleanText] at h
  split at h
  · simp at h
  · rw [toLowerStr, List.head?_map] at h
    cases hX : (stripWs (squeezeWs (collapseSpecial (removeWww (removeUrls (removeTags s)))))).head? with
    | none => rw [hX] at h; simp at h
    | some e =>
      rw [hX] at h
      simp only [Option.map_some', Option.some.injEq] at h
      rw [← h, isWsChar_toLower]
      exact stripWs_head hX

theorem cleanText_getLast_not_ws {s : Str} {d : Char} (h : (cleanText s).getLast? = some d) :
    isWsChar d = false := by
  rw [cleanText] at h
  split at h
  · simp at h
  · rw [toLowerStr, List.getLast?_map] at h
    cases hX : (stripWs (squeezeWs (collapseSpecial (removeWww (removeUrls (removeTags s)))))).getLast? with
    | none => rw [hX] at h; simp at h
    | some e =>
      rw [hX] at h
      simp only [Option.map_some', Option.some.injEq] at h
      rw [← h, isWsChar_toLower]
      exact stripWs_getLast hX

/-! ### `cleanText` is the identity on its own output -/

theorem rtAux_id {l : Str} (h : '<' ∉ l) : rtAux none l = l := by
  induction l with
  | nil => rfl
  | cons c rest ih =>
    simp only [rtAux]
    have hne : ¬ (c = '<') := by
      intro hc
      rw [← hc] at h
      exact h (List.mem_cons_self c rest)
    rw [if_neg hne, ih (fun hm => h (List.mem_cons_of_mem _ hm))]

theorem prefix_subset {p l : Str} (h : p.isPrefixOf l = true) : ∀ c ∈ p, c ∈ l := by
  intro c hc
  exact (List.isPrefixOf_iff_prefix.mp h).sublist.subset hc

theorem urlStart_colon {l : Str} (h : urlStart l = true) : ':' ∈ l := by
  simp only [urlStart, Bool.or_eq_true, Bool.and_eq_true] at h
  rcases h with ⟨h1, _⟩ | ⟨h1, _⟩
  · exact prefix_subset h1 ':' (by decide)
  · exact prefix_subset h1 ':' (by decide)

theorem wwwStart_dot {l : Str} (h : wwwStart l = true) : '.' ∈ l := by
  simp only [wwwStart, Bool.and_eq_true] at h
  exact prefix_subset h.1 '.' (by decide)

theorem ruAux_id {l : Str} (h : ':' ∉ l) : ruAux false l = l := by
  induction l with
  | nil => rfl
  | cons c rest ih =>
    simp only [ruAux, Bool.false_eq_true, if_false]
    rw [if_neg (fun hc => h (urlStart_colon hc)),
      ih (fun hm => h (List.mem_cons_of_mem _ hm))]

theorem rwAux_id {l : Str} (h : '.' ∉ l) : rwAux false l = l := by
  induction l with
  | nil => rfl
  | cons c rest ih =>
    simp only [rwAux, Bool.false_eq_true, if_false]
    rw [if_neg (fun hc => h (wwwStart_dot hc)),
      ih (fun hm => h (List.mem_cons_of_mem _ hm))]

theorem collapseSpecial_id {l : Str} (h : ∀ c ∈ l, (isAlnumChar c || isWsChar c) = true) :
    collapseSpecial l = l := by
  induction l with
  | nil => rfl
  | cons c rest ih =>
    simp only [collapseSpecial, List.map_cons] at *
    rw [if_pos (h c (List.mem_cons_self _ _)), ih (fun d hd => h d (List.mem_cons_of_mem _ hd))]

theorem swAux_id {l : Str} (hsp : ∀ c ∈ l, isWsChar c = true → c = ' ')
    (hch : List.Chain' wsRel l) :
    swAux false l = l ∧ ((∀ d, l.head? = some d → isWsChar d = false) → swAux true l = l) := by
  induction l with
  | nil => exact ⟨rfl, fun _ => rfl⟩
  | cons c rest ih =>
    obtain ⟨hc1, hc2⟩ := List.chain'_cons'.mp hch
    have ih2 := ih (fun d hd hw => hsp d (List.mem_cons_of_mem _ hd) hw) hc2
    by_cases hw : isWsChar c = true
    · have hcsp := hsp c (List.mem_cons_self _ _) hw
      have hrest : ∀ d, rest.head? = some d → isWsChar d = false := by
        intro d hd
        have := hc1 d (Option.mem_def.mpr hd)
        by_contra hdw
        exact this ⟨hw, by simpa using hdw⟩
      constructor
      · rw [swAux, if_pos hw]
        simp only [Bool.false_eq_true, if_false]
        rw [ih2.2 hrest, hcsp]
      · intro hhead
        have := hhead c rfl
        rw [hw] at this
        cases this
    · constructor
      · rw [swAux, if_neg hw, ih2.1]
      · intro _
        rw [swAux, if_neg hw, ih2.1]

theorem dropWhile_ws_id {l : Str} (h : ∀ d, l.head? = some d → isWsChar d = false) :
    l.dropWhile isWsChar = l := by
  cases l with
  | nil => rfl
  | cons c rest =>
    rw [List.dropWhile_cons_of_neg]
    simp [h c rfl]

theorem stripWs_id {l : Str} (hh : ∀ d, l.head? = some d → isWsChar d = false)
    (hl : ∀ d, l.getLast? = some d → isWsChar d = false) : stripWs l = l := by
  unfold stripWs
  rw [dropWhile_ws_id hh, dropWhile_ws_id (fun d hd => hl d (by rwa [List.head?_reverse] at hd)),
    List.reverse_reverse]

theorem toLowerStr_id {l : Str} (h : ∀ c ∈ l, isLowerAlnumChar c = true ∨ c = ' ') :
    toLowerStr l = l := by
  induction l with
  | nil => rfl
  | cons c rest ih =>
    simp only [toLowerStr, List.map_cons] at *
    rw [ih (fun d hd => h d (List.mem_cons_of_mem _ hd))]
    have hc := h c (List.mem_cons_self _ _)
    have e : Char.toLower c = c := by
      apply toLower_of_not_upper
      rcases hc with h1 | h1
      · simp only [isLowerAlnumChar, decide_eq_true_eq] at h1
        omega
      · subst h1
        decide
    rw [e]

theorem cleanText_idem (s : Str) : cleanText (cleanText s) = cleanText s := by
  by_cases hnil : cleanText s = []
  · rw [hnil]
    rfl
  · have hchars := cleanText_chars (s := s)
    have hchain := cleanText_chainWs s
    have hnoLt : '<' ∉ cleanText s := by
      intro hm
      rcases hchars _ hm with h1 | h1
      · exact absurd h1 (by decide)
      · exact absurd h1 (by decide)
    have hnoColon : ':' ∉ cleanText s := by
      intro hm
      rcases hchars _ hm with h1 | h1
      · exact absurd h1 (by decide)
      · exact absurd h1 (by decide)
    have hnoDot : '.' ∉ cleanText s := by
      intro hm
      rcases hchars _ hm with h1 | h1
      · exact absurd h1 (by decide)
      · exact absurd h1 (by decide)
    rw [cleanText, if_neg hnil]
    rw [show removeTags (cleanText s) = cleanText s from rtAux_id hnoLt]
    rw [show removeUrls (cleanText s) = cleanText s from ruAux_id hnoColon]
    rw [show removeWww (cleanText s) = cleanText s from rwAux_id hnoDot]
    rw [collapseSpecial_id (by
      intro c hc
      rcases hchars c hc with h1 | h1
      · simp only [isLowerAlnumChar, decide_eq_true_eq] at h1
        simp only [isAlnumChar, isWsChar, Bool.or_eq_true, decide_eq_true_eq]
        omega
      · subst h1
        decide)]
    rw [show squeezeWs (cleanText s) = cleanText s from
      (swAux_id (fun c hc hw => isWsChar_eq_space (hchars c hc) hw) hchain).1]
    rw [stripWs_id (fun d hd => cleanText_head_not_ws hd) (fun d hd => cleanText_getLast_not_ws hd)]
    exact toLowerStr_id hchars

/-! ### Counter lemmas -/

theorem addCount_pos : ∀ (l : List (Str × Nat)) (s : Str),
    (∀ p ∈ l, 1 ≤ p.2) → ∀ p ∈ addCount l s, 1 ≤ p.2 := by
  intro l
  induction l with
  | nil =>
    intro s _ p hp
    simp only [addCount, List.mem_singleton] at hp
    subst hp
    exact le_refl 1
  | cons q rest ih =>
    intro s h p hp
    obtain ⟨t, n⟩ := q
    rw [addCount] at hp
    by_cases ht : t = s
    · rw [if_pos ht] at hp
      rcases List.mem_cons.mp hp with rfl | hp
      · simp
      · exact h p (List.mem_cons_of_mem _ hp)
    · rw [if_neg ht] at hp
      rcases List.mem_cons.mp hp with rfl | hp
      · exact h (t, n) (List.mem_cons_self _ _)
      · exact ih s (fun r hr => h r (List.mem_cons_of_mem _ hr)) p hp

theorem foldl_addCount_pos : ∀ (items : List Str) (acc : List (Str × Nat)),
    (∀ p ∈ acc, 1 ≤ p.2) → ∀ p ∈ items.foldl addCount acc, 1 ≤ p.2 := by
  intro items
  induction items with
  | nil =>
    intro acc h
    simpa using h
  | cons x rest ih =>
    intro acc h
    rw [List.foldl_cons]
    exact ih _ (addCount_pos _ _ h)

theorem countsOf_pos {items : List Str} : ∀ p ∈ countsOf items, 1 ≤ p.2 :=
  foldl_addCount_pos items [] (by simp)

theorem mem_insertDesc {x p : Str × Nat} :
    ∀ {l : List (Str × Nat)}, p ∈ insertDesc x l → p = x ∨ p ∈ l := by
  intro l
  induction l with
  | nil =>
    intro h
    simpa [insertDesc] using h
  | cons y ys ih =>
    intro h
    rw [insertDesc] at h
    by_cases hc : y.2 ≤ x.2
    · rw [if_pos hc] at h
      rcases List.mem_cons.mp h with rfl | h
      · exact Or.inl rfl
      · exact Or.inr h
    · rw [if_neg hc] at h
      rcases List.mem_cons.mp h with rfl | h
      · exact Or.inr (List.mem_cons_self _ _)
      · rcases ih h with h1 | h1
        · exact Or.inl h1
        · exact Or.inr (List.mem_cons_of_mem _ h1)

theorem mem_sortDesc {p : Str × Nat} :
    ∀ {l : List (Str × Nat)}, p ∈ sortDesc l → p ∈ l := by
  intro l
  induction l with
  | nil =>
    intro h
    simp [sortDesc] at h
  | cons x xs ih =>
    intro h
    rw [sortDesc] at h
    rcases mem_insertDesc h with rfl | h
    · exact List.mem_cons_self _ _
    · exact List.mem_cons_of_mem _ (ih h)

theorem mostCommon_subset {n : Nat} {items : List Str} {p : Str × Nat}
    (h : p ∈ mostCommon n items) : p ∈ countsOf items :=
  mem_sortDesc (List.take_subset n _ h)

/-- The source's "filter first, then normalize" item list equals the
spec's "normalize every item, then drop empties" list: items whose
`cleanText` is empty normalize to the empty string anyway. -/
theorem cleaned_lists_eq (items : List Str) :
    cleanedItems items
    = ((items.map (fun x => cleanTop5Item (cleanText x))).filter (fun x => decide (x ≠ []))) := by
  rw [cleanedItems]
  induction items with
  | nil => rfl
  | cons x rest ih =>
    by_cases hx : cleanText x = []
    · have hg : (decide (cleanText x ≠ [])) = false := by simp [hx]
      have hfx : cleanTop5Item (cleanText x) = [] := by rw [hx]; rfl
      rw [List.map_cons, List.filter_cons_of_neg (by simp [hg]), List.filter_cons_of_neg (by simp [hfx])]
      exact ih
    · have hg : (decide (cleanText x ≠ [])) = true := by simp [hx]
      rw [List.filter_cons_of_pos (by simp [hg]), List.map_cons, List.map_cons, List.filter_cons,
        List.filter_cons, ih]

/-! ### Shape of the discover analyzer's collected items -/

theorem mem_foldl_append {f : Block → List Str} :
    ∀ (doc : List Block) (acc : List Str) (x : Str),
      x ∈ doc.foldl (fun a b => a ++ f b) acc → x ∈ acc ∨ ∃ b ∈ doc, x ∈ f b := by
  intro doc
  induction doc with
  | nil =>
    intro acc x h
    exact Or.inl (by simpa using h)
  | cons b rest ih =>
    intro acc x h
    rw [List.foldl_cons] at h
    rcases ih _ x h with h1 | ⟨b', hb', hx⟩
    · rcases List.mem_append.mp h1 with h2 | h2
      · exact Or.inl h2
      · exact Or.inr ⟨b, List.mem_cons_self _ _, h2⟩
    · exact Or.inr ⟨b', List.mem_cons_of_mem _ hb', hx⟩

theorem discoverLineItem_shape {ln x : Str} (h : discoverLineItem ln = some x) :
    ∃ y, x = cleanText y := by
  simp only [discoverLineItem] at h
  split at h
  · cases h
  · split at h
    · cases h
    · exact ⟨_, (Option.some.injEq _ _ ▸ h).symm⟩

theorem discoverBlockItems_shape {b : Block} {x : Str} (hx : x ∈ discoverBlockItems b) :
    ∃ y, x = cleanText y := by
  simp only [discoverBlockItems] at hx
  split at hx
  · simp at hx
  · split at hx
    · simp at hx
    · split at hx
      · obtain ⟨ln, _, hln⟩ := List.mem_filterMap.mp hx
        exact discoverLineItem_shape hln
      · simp at hx

theorem discoverItems_shape {doc : List Block} {x : Str} (hx : x ∈ discoverItems doc) :
    ∃ y, x = cleanText y := by
  rcases mem_foldl_append doc [] x hx with h | ⟨b, _, h⟩
  · simp at h
  · exact discoverBlockItems_shape h

/-! ### Risk-percent arithmetic -/

theorem ratFloor_eq (q : ℚ) : q.floor = ⌊q⌋ := by
  rw [Rat.floor_def', Rat.floor_def]

theorem clamp_mul_shift (total : ℚ) :
    max 0 (min 100 (total / 15 * 100)) = max 0 (min 1 (total / 15)) * 100 := by
  rcases le_total (total / 15) 0 with h | h
  · have l1 : min 100 (total / 15 * 100) = total / 15 * 100 := min_eq_right (by nlinarith)
    have l2 : max 0 (total / 15 * 100) = 0 := max_eq_left (by nlinarith)
    have l3 : min 1 (total / 15) = total / 15 := min_eq_right (by linarith)
    have l4 : max 0 (total / 15) = 0 := max_eq_left h
    rw [l1, l2, l3, l4, zero_mul]
  · rcases le_total (total / 15) 1 with h1 | h1
    · have l1 : min 100 (total / 15 * 100) = total / 15 * 100 := min_eq_right (by nlinarith)
      have l2 : max 0 (total / 15 * 100) = total / 15 * 100 := max_eq_right (by nlinarith)
      have l3 : min 1 (total / 15) = total / 15 := min_eq_right h1
      have l4 : max 0 (total / 15) = total / 15 := max_eq_right h
      rw [l1, l2, l3, l4]
    · have l1 : min 100 (total / 15 * 100) = 100 := min_eq_left (by nlinarith)
      have l2 : max 0 (100 : ℚ) = 100 := max_eq_right (by norm_num)
      have l3 : min 1 (total / 15) = 1 := min_eq_left h1
      have l4 : max 0 (1 : ℚ) = 1 := max_eq_right (by norm_num)
      rw [l1, l2, l3, l4, one_mul]

/-! ### Claims -/

/-- C1 (amended): in the generic and search-specific analyzers every
processed record block increments exactly one category counter; the
video- and discover-specific analyzers do not count per block (see the
counterexample). -/
theorem claim_C1_amended :
    (∀ (k : Cats6) (items : List Str) (b : Block),
      ∃ c : Cat6, (genStep (k, items) b).1 = bump6 c k)
    ∧ (∀ (k : Cats2) (terms : List Str) (b : Block),
      (searchStep (k, terms) b).1 = ⟨k.search + 1, k.other⟩
      ∨ (searchStep (k, terms) b).1 = ⟨k.search, k.other + 1⟩) := by
  constructor
  · intro k items b
    show ∃ c, genCats (toLowerStr (blockText b)) k = bump6 c k
    unfold genCats
    split_ifs
    · exact ⟨.searchC, rfl⟩
    · exact ⟨.youtubeC, rfl⟩
    · exact ⟨.mapsC, rfl⟩
    · exact ⟨.shoppingC, rfl⟩
    · exact ⟨.discoverC, rfl⟩
    · exact ⟨.otherC, rfl⟩
  · intro k terms b
    rcases hf : searchPhrases.find? (fun p => isSubstr p (blockText b)) with _ | p
    · right
      simp [searchStep, hf]
    · left
      simp [searchStep, hf]

/-- C1 (counterexample): the video-specific analyzer processes the block
"hello" yet increments no category counter at all, refuting "every
processed record block increments exactly one counter" for all four
analyzers. -/
theorem claim_C1_counterexample :
    (analyzeYoutube [helloBlock]).1 = ⟨0, 0, 0, 0, 0, 0⟩ := by decide

/-- C2 (code evaluation at the failing input): on the block
"Searched for cats and dogs at 10:30" the search analyzer appends
"cats and dogs at 10 30" to its item list — not "cats and dogs" — because
`clean_text` has already replaced the colon with a space, so the
time-fragment pattern (which requires a colon) can never match. -/
theorem claim_C2_code_eval :
    searchStep (⟨0, 0⟩, []) c2Block = (⟨1, 0⟩, [str "cats and dogs at 10 30"])
    ∧ str "cats and dogs at 10 30" ≠ str "cats and dogs" := by decide

/-- C3 (amended): the discover analyzer's ranked list is `most_common(5)`
of its collected items (sentinel when none), where the items are already
`clean_text`-normalized (so re-normalizing is the identity) — but the
shared `clean_top5_item` noise filter of `top5_from_list` is not applied
on this path. -/
theorem claim_C3_amended (doc : List Block) :
    (analyzeDiscover doc).2
      = (if discoverItems doc = [] then [(str "No data found", 0)]
        else mostCommon 5 (discoverItems doc))
    ∧ ∀ x ∈ discoverItems doc, cleanText x = x := by
  constructor
  · rfl
  · intro x hx
    obtain ⟨y, rfl⟩ := discoverItems_shape hx
    exact cleanText_idem y

/-- C3 (counterexample): on a qualifying discover block whose item is
"ok", the discover analyzer ranks [("ok", 1)], while the shared
`top5_from_list` path on the same collected items returns the sentinel
(the noise filter drops "ok"), so the two ranked lists differ. -/
theorem claim_C3_counterexample :
    (analyzeDiscover [okBlock]).2 = [(str "ok", 1)]
    ∧ top5FromList (discoverItems [okBlock]) = [(str "No data found", 0)]
    ∧ (analyzeDiscover [okBlock]).2 ≠ top5FromList (discoverItems [okBlock]) := by decide

/-- C3 (witness): the amended theorem applied to the concrete one-block
document whose collected item is "ok". -/
theorem claim_C3_witness : cleanText (str "ok") = str "ok" :=
  (claim_C3_amended [okBlock]).2 (str "ok") (by decide)

/-- C4: `top5FromList` returns at most five entries, and returns exactly
the sentinel `[("No data found", 0)]` precisely when normalizing and
noise-filtering every raw item and dropping empties leaves an empty list. -/
theorem claim_C4 (items : List Str) :
    (top5FromList items).length ≤ 5
    ∧ (top5FromList items = [(str "No data found", 0)]
      ↔ ((items.map (fun x => cleanTop5Item (cleanText x))).filter (fun x => decide (x ≠ []))) = []) := by
  rw [← cleaned_lists_eq items]
  simp only [top5FromList]
  by_cases hA : cleanedItems items = []
  · rw [if_pos hA]
    exact ⟨by simp, by simp [hA]⟩
  · rw [if_neg hA]
    constructor
    · simp only [mostCommon]
      exact List.length_take_le _ _
    · constructor
      · intro hcon
        have hm : (str "No data found", 0) ∈ mostCommon 5 (cleanedItems items) := by
          rw [hcon]
          exact List.mem_singleton_self _
        have := countsOf_pos _ (mostCommon_subset hm)
        simp at this
      · intro hcon
        exact absurd hcon hA

/-- C5: for every total risk score, the percent is an integer in [0, 100]
and equals `clamp(total / 15, 0, 1) * 100` truncated toward zero. -/
theorem claim_C5 (total : ℚ) :
    0 ≤ riskPercent total ∧ riskPercent total ≤ 100
    ∧ riskPercent total = pyTrunc (max 0 (min 1 (total / 15)) * 100) := by
  have hcl0 : (0 : ℚ) ≤ max 0 (min 100 (total / 15 * 100)) := le_max_left 0 _
  have hcl100 : max 0 (min 100 (total / 15 * 100)) ≤ 100 :=
    max_le (by norm_num) (min_le_left _ _)
  have hpt : riskPercent total = (max 0 (min 100 (total / 15 * 100))).floor := by
    rw [riskPercent, pyTrunc, if_pos hcl0]
  refine ⟨?_, ?_, ?_⟩
  · rw [hpt, ratFloor_eq]
    exact Int.floor_nonneg.mpr hcl0
  · rw [hpt, ratFloor_eq]
    have h1 := Int.floor_le_floor (α := ℚ) hcl100
    have h2 : ⌊(100 : ℚ)⌋ = 100 := by norm_num
    omega
  · rw [riskPercent, clamp_mul_shift]

/-- C6: the tier is selected from the total score by the thresholds
`total ≤ 3` (Low), `3 < total ≤ 10` (Medium), `total > 10` (High), and
each tier returns exactly the literal color token, headline, and three
suggestion strings of the specification. -/
theorem claim_C6 (total : ℚ) :
    (total ≤ 3 → calculateRisk total = ("Low", "green", "Low tracking detected.",
      ["Keep privacy settings reviewed monthly.",
       "Use incognito for sensitive searches.",
       "Periodically clear browsing history."], riskPercent total))
    ∧ (3 < total → total ≤ 10 → calculateRisk total = ("Medium", "#ffcc00",
      "Moderate tracking detected.",
      ["Turn off Location History in Google settings.",
       "Review connected apps and revoke unused permissions.",
       "Use a privacy-focused browser (Brave/Firefox) for routine browsing."], riskPercent total))
    ∧ (10 < total → calculateRisk total = ("High", "red", "Heavy tracking detected recently.",
      ["Pause Web & App Activity (Google Account ▶ Data & privacy).",
       "Delete recent activity from My Activity.",
       "Consider a VPN for browsing and disable ad personalization."], riskPercent total)) := by
  refine ⟨?_, ?_, ?_⟩
  · intro h
    rw [calculateRisk, if_pos h]
  · intro h1 h2
    rw [calculateRisk, if_neg (not_le.mpr h1), if_pos h2]
  · intro h
    rw [calculateRisk, if_neg (by linarith), if_neg (not_le.mpr h)]

/-- C6 (witness): the Medium branch at total score 5. -/
theorem claim_C6_witness :
    calculateRisk 5 = ("Medium", "#ffcc00", "Moderate tracking detected.",
      ["Turn off Location History in Google settings.",
       "Review connected apps and revoke unused permissions.",
       "Use a privacy-focused browser (Brave/Firefox) for routine browsing."], riskPercent 5) :=
  (claim_C6 5).2.1 (by decide) (by decide)

/-- C7: `cleanText` output holds only lowercase alphanumerics and spaces,
with no two adjacent spaces and no leading or trailing space; it is total
by construction, and empty or all-noise input yields the empty string. -/
theorem claim_C7 (s : Str) :
    (∀ c ∈ cleanText s, isLowerAlnumChar c = true ∨ c = ' ')
    ∧ List.Chain' (fun a b => ¬ (a = ' ' ∧ b = ' ')) (cleanText s)
    ∧ (cleanText s).head? ≠ some ' '
    ∧ (cleanText s).getLast? ≠ some ' '
    ∧ cleanText [] = []
    ∧ ((∀ c ∈ s, isAlnumChar c = false) → cleanText s = []) := by
  refine ⟨cleanText_chars, ?_, ?_, ?_, rfl, cleanText_noise⟩
  · exact (cleanText_chainWs s).imp
      (fun a b hab hcon => hab ⟨by rw [hcon.1]; decide, by rw [hcon.2]; decide⟩)
  · intro h
    exact absurd (cleanText_head_not_ws h) (by decide)
  · intro h
    exact absurd (cleanText_getLast_not_ws h) (by decide)

/-- C7 (witness): all-noise input evaluates to the empty string. -/
theorem claim_C7_witness : cleanText (str "$$$") = [] :=
  (claim_C7 (str "$$$")).2.2.2.2.2 (by decide)

/-- C8: when a block of the search analyzer matches a phrase but the
extracted term normalizes to empty, the Search counter still increments
while the term list is left unchanged. -/
theorem claim_C8 (k : Cats2) (terms : List Str) (b : Block) (p : Str)
    (hf : searchPhrases.find? (fun q => isSubstr q (blockText b)) = some p)
    (ht : searchTermOf (blockText b) p = []) :
    searchStep (k, terms) b = (⟨k.search + 1, k.other⟩, terms) := by
  simp [searchStep, hf, ht]

/-- C8 (witness): the block "Searched for !!!" matches "Searched for",
its term cleans to empty, and Search is bumped with no term appended. -/
theorem claim_C8_witness : searchStep (⟨0, 0⟩, []) emptyTermBlock = (⟨1, 0⟩, []) :=
  claim_C8 ⟨0, 0⟩ [] emptyTermBlock (str "Searched for") (by decide) (by decide)

/-- C9 (counterexample): the block "Searched for a Search for b" matches
two of the three phrases (the query loop has no break), appending two
query strings from one block and setting the Search count to 2. -/
theorem claim_C9_counterexample :
    ytQueriesOf (blockText doubleMatchBlock) = [str "a search for b", str "b"]
    ∧ (analyzeYoutube [doubleMatchBlock]).1.search = 2 := by decide

/-- C9 (amended): a block of the video analyzer appends one query per
matching phrase whose stripped term is nonempty, hence at most three
query strings per block (not at most one). -/
theorem claim_C9_amended (b : Block) : (ytQueriesOf (blockText b)).length ≤ 3 := by
  rw [ytQueriesOf]
  have h := List.length_filterMap_le (fun p => ytQueryOf (blockText b) p) ytPhrases
  simpa [ytPhrases] using h

/-- C10: phrase matching in the search analyzer is case-sensitive — a
block containing none of the three capitalized literals increments Other,
not Search, and contributes no term. -/
theorem claim_C10 (k : Cats2) (terms : List Str) (b : Block)
    (h : ∀ p ∈ searchPhrases, isSubstr p (blockText b) = false) :
    searchStep (k, terms) b = (⟨k.search, k.other + 1⟩, terms) := by
  have hf : searchPhrases.find? (fun p => isSubstr p (blockText b)) = none :=
    List.find?_eq_none.mpr (fun p hp => by simp [h p hp])
  simp [searchStep, hf]

/-- C10 (witness): the lowercase block "searched for cats" contains none
of the capitalized phrases and counts as Other. -/
theorem claim_C10_witness : searchStep (⟨0, 0⟩, []) lowercaseBlock = (⟨0, 1⟩, []) :=
  claim_C10 ⟨0, 0⟩ [] lowercaseBlock (by decide)
